import Mathlib

/-!
Verification of the disaster-response training script
(`src/models/train_classifier.py`) against its specification.

The script's algorithmic core is embedded shallowly:

* `multioutput_fscore` (lines 100-134): per-label support-weighted F-beta
  scores, with scikit-learn's zero-division-as-zero semantics, filtered to
  drop perfect scores and aggregated by a geometric mean (`scipy gmean`).
  Label values are integers, scores are exact rationals; the final
  geometric mean lives in `ℝ`.  `scipy.stats.mstats.gmean` of an empty
  array is NaN; NaN is modelled by `Option.none`.
* `StartingVerbExtractor.starting_verb` (lines 83-90) together with
  `tokenize` (lines 54-73).  The NLTK collaborators (`sent_tokenize`,
  `word_tokenize`, the lemmatizer, and the tagger part of `pos_tag`) are
  abstract parameters; `nltk.pos_tag` pairs each input token with a tag,
  which is kept explicit in `posTag`.  Python's `str.lower`/`str.strip`
  are modelled at the ASCII level by `pyLower`/`pyStrip`.  An
  `IndexError` raised by `pos_tags[0]` on an empty tag list is modelled
  by `Option.none`.
* `evaluate_model` (lines 167-189): the console output is modelled as an
  explicit trace of `EvalLine` values, one per `print` call, and the
  Python return value `None` as `Unit`.
* `main` (lines 205-240): the effectful steps are modelled as a trace of
  `MainAction` values.
-/

namespace DisasterResponse

/-! ### Scorer: `multioutput_fscore`, lines 100-134

`fbeta_score(y_true[:,c], y_pred[:,c], beta, average='weighted')` is
embedded per column: for each class label, precision `tp/(tp+fp)` and
recall `tp/(tp+fn)` with scikit-learn's zero-division handling (a zero
denominator yields 0), the F-beta combination, and the support-weighted
average over the observed labels. -/

/-- Number of entries of the column `l` equal to the class label `c`. -/
def countEq (l : List ℤ) (c : ℤ) : ℕ := l.count c

/-- True positives for class `c`: positions where both the true column and
the predicted column hold `c`. -/
def tpCount (t p : List ℤ) (c : ℤ) : ℕ :=
  ((t.zip p).filter (fun x => decide (x.1 = c) && decide (x.2 = c))).length

/-- Precision of class `c` on true column `t`, predicted column `p`:
`tp / (predicted count)`, and `0` when the denominator is zero
(scikit-learn `zero_division`). -/
def precisionC (t p : List ℤ) (c : ℤ) : ℚ :=
  if countEq p c = 0 then 0 else (tpCount t p c : ℚ) / (countEq p c : ℚ)

/-- Recall of class `c`: `tp / (true count)`, and `0` when the denominator
is zero (scikit-learn `zero_division`). -/
def recallC (t p : List ℤ) (c : ℤ) : ℚ :=
  if countEq t c = 0 then 0 else (tpCount t p c : ℚ) / (countEq t c : ℚ)

/-- Per-class F-beta `(1+β²)·P·R / (β²·P+R)`, and `0` when the denominator
is zero, as scikit-learn computes it. -/
def fbetaClass (t p : List ℤ) (β : ℚ) (c : ℤ) : ℚ :=
  if β ^ 2 * precisionC t p c + recallC t p c = 0 then 0
  else (1 + β ^ 2) * precisionC t p c * recallC t p c /
    (β ^ 2 * precisionC t p c + recallC t p c)

/-- `fbeta_score(t, p, beta, average='weighted')`: the support-weighted
average of the per-class F-beta scores over the labels observed in either
column (labels absent from `t` carry weight 0). -/
def weightedFbeta (t p : List ℤ) (β : ℚ) : ℚ :=
  (((t ++ p).dedup.map fun c => (countEq t c : ℚ) * fbetaClass t p β c).sum) /
    (t.length : ℚ)

/-- `y_true.shape[1]`: width of the (rectangular) matrix, read off the
first row. -/
def ncols (m : List (List ℤ)) : ℕ := (m.headD []).length

/-- `m[:, j]`: column `j` of a row-major matrix. -/
def col (m : List (List ℤ)) (j : ℕ) : List ℤ := m.map fun r => r.getD j 0

/-- The `score_list` built by the loop at lines 128-130: one weighted
F-beta score per column of `y_true`. -/
def scoreList (yt yp : List (List ℤ)) (β : ℚ) : List ℚ :=
  (List.range (ncols yt)).map fun j => weightedFbeta (col yt j) (col yp j) β

/-- `scipy.stats.mstats.gmean`: geometric mean `(∏ l)^(1/|l|)`.  On an
empty list scipy produces NaN, modelled as `none`. -/
noncomputable def gmeanQ (l : List ℚ) : Option ℝ :=
  if l.isEmpty then none
  else some ((l.map fun q : ℚ => (q : ℝ)).prod ^ ((l.length : ℝ))⁻¹)

/-- A label matrix as passed to `multioutput_fscore`: either a pandas
`DataFrame` (whose `.values` is the underlying array) or a plain numpy
array. -/
inductive LabelInput where
  | df (values : List (List ℤ))
  | arr (values : List (List ℤ))

/-- The `.values` conversion performed at lines 124-127: a `DataFrame` is
replaced by its underlying array; an array is left unchanged. -/
def toValues : LabelInput → List (List ℤ)
  | LabelInput.df v => v
  | LabelInput.arr v => v

/-- `multioutput_fscore(y_true, y_pred, beta)`, lines 123-134: convert
inputs to arrays, build the per-column score list, keep the scores `< 1`
(`f1score_numpy[f1score_numpy<1]`), and return their geometric mean. -/
noncomputable def multioutput_fscore (y_true y_pred : LabelInput) (β : ℚ) : Option ℝ :=
  gmeanQ ((scoreList (toValues y_true) (toValues y_pred) β).filter fun s => decide (s < 1))

/-! ### Tokenizer and `StartingVerbExtractor.starting_verb`, lines 54-90

`word_tokenize`, `sent_tokenize`, the WordNet lemmatizer, and the tag
component of `nltk.pos_tag` are external NLTK collaborators, taken as
function parameters.  `nltk.pos_tag` pairs every input token with a tag,
so it is `tokens.zip (tagger tokens)`.  Python's `str.lower`/`str.strip`
are modelled at the ASCII level (`pyCharLower`, `pyStrip`): Unicode
lowercasing never produces an uppercase ASCII letter either, which is the
only property of `lower` the proofs use. -/

/-- ASCII uppercase/lowercase pairs, data for the model of
Python's `str.lower`. -/
def asciiLowerTable : List (Char × Char) :=
  [('A','a'), ('B','b'), ('C','c'), ('D','d'), ('E','e'), ('F','f'),
   ('G','g'), ('H','h'), ('I','i'), ('J','j'), ('K','k'), ('L','l'),
   ('M','m'), ('N','n'), ('O','o'), ('P','p'), ('Q','q'), ('R','r'),
   ('S','s'), ('T','t'), ('U','u'), ('V','v'), ('W','w'), ('X','x'),
   ('Y','y'), ('Z','z')]

/-- One character of Python's `str.lower`: uppercase ASCII letters map to
their lowercase pair, everything else is unchanged. -/
def pyCharLower (c : Char) : Char :=
  ((asciiLowerTable.find? fun q => q.1 == c).map Prod.snd).getD c

/-- Python `str.lower`. -/
def pyLower (s : String) : String := String.mk (s.data.map pyCharLower)

/-- Python `str.strip`: drop leading and trailing whitespace. -/
def pyStrip (s : String) : String :=
  String.mk (((s.data.dropWhile Char.isWhitespace).reverse.dropWhile
    Char.isWhitespace).reverse)

/-- `tokenize(text)`, lines 54-73: `word_tokenize`, then per token
`lemmatizer.lemmatize(token).lower().strip()`. -/
def tokenize (word_tokenize : String → List String) (lemmatize : String → String)
    (text : String) : List String :=
  (word_tokenize text).map fun tok => pyStrip (pyLower (lemmatize tok))

/-- `nltk.pos_tag(tokens)`: each input token paired with the tag the
tagger assigns; the token component is the input token itself. -/
def posTag (tagger : List String → List String) (tokens : List String) :
    List (String × String) :=
  tokens.zip (tagger tokens)

/-- The body of the sentence loop at lines 86-89: tag the tokenized
sentence, inspect `pos_tags[0]`.  An empty tag list makes `pos_tags[0]`
raise `IndexError`, modelled as `none`. -/
def sentenceFlag (word_tokenize : String → List String) (lemmatize : String → String)
    (tagger : List String → List String) (sentence : String) : Option Bool :=
  match posTag tagger (tokenize word_tokenize lemmatize sentence) with
  | [] => none
  | (w, t) :: _ => some ((t == "VB") || (t == "VBP") || (w == "RT"))

/-- The sentence loop of `starting_verb`: return `True` at the first
sentence whose flag holds, `False` when the loop runs out. -/
def starting_verb_loop (flag : String → Option Bool) : List String → Option Bool
  | [] => some false
  | s :: rest =>
    match flag s with
    | none => none
    | some true => some true
    | some false => starting_verb_loop flag rest

/-- `StartingVerbExtractor.starting_verb(self, text)`, lines 83-90. -/
def starting_verb (sent_tokenize : String → List String)
    (word_tokenize : String → List String) (lemmatize : String → String)
    (tagger : List String → List String) (text : String) : Option Bool :=
  starting_verb_loop (sentenceFlag word_tokenize lemmatize tagger) (sent_tokenize text)

/-- Concrete `sent_tokenize` behaviour on the inputs used below: NLTK
returns no sentences for the empty string and one sentence for a
one-sentence text. -/
def sentTokSimple : String → List String := fun text =>
  if text = "" then [] else [text]

/-- Concrete `word_tokenize` behaviour for the text \"RT breaking news\". -/
def wordTokRT : String → List String := fun text =>
  if text = "RT breaking news" then ["RT", "breaking", "news"] else [text]

/-- Concrete `word_tokenize` behaviour for the text \"Run now\". -/
def wordTokRun : String → List String := fun text =>
  if text = "Run now" then ["Run", "now"] else [text]

/-- A part-of-speech tagger behaving like NLTK's on the tokens of
\"RT breaking news\" after lowercasing: `rt`/`news` are nouns, `breaking`
a gerund. -/
def tagRT : List String → List String := fun tokens =>
  tokens.map fun tok => if tok = "breaking" then "VBG" else "NN"

/-- A part-of-speech tagger behaving like NLTK's on the tokens of
\"Run now\": `run` is a base-form verb. -/
def tagRun : List String → List String := fun tokens =>
  tokens.map fun tok => if tok = "run" then "VB" else "NN"

/-! ### Evaluator: `evaluate_model`, lines 167-189

Each `print` call contributes one `EvalLine` to an explicit output trace;
`classification_report` and `model.predict` are external collaborators
taken as parameters.  The Python function returns `None`, so the modelled
return value is `Unit`. -/

/-- `m[i][j]`: one cell of a row-major matrix. -/
def cell (m : List (List ℤ)) (i j : ℕ) : ℤ := (m.getD i []).getD j 0

/-- The `(i,j)` entry of `y_pred == y_test`, as `1` or `0`. -/
def matchInd (yp yt : List (List ℤ)) (i j : ℕ) : ℚ :=
  if cell yp i j = cell yt i j then 1 else 0

/-- One per-column mean of `(y_pred == y_test).mean()`. -/
def colMeanMatch (yp yt : List (List ℤ)) (j : ℕ) : ℚ :=
  (((List.range yt.length).map fun i => matchInd yp yt i j).sum) / (yt.length : ℚ)

/-- `(y_pred == y_test).mean().mean()`, line 187: the mean over columns of
the per-column means. -/
def overall_accuracy (yp yt : List (List ℤ)) : ℚ :=
  (((List.range (ncols yt)).map fun j => colMeanMatch yp yt j).sum) / ((ncols yt : ℚ))

/-- Accuracy as the spec words it: the mean, over every (sample, label)
cell, of the exact-match indicator.  Stated from the spec for comparison
with `overall_accuracy`. -/
def cellMeanAccuracy (yp yt : List (List ℤ)) : ℚ :=
  (((List.range yt.length).map fun i =>
      ((List.range (ncols yt)).map fun j => matchInd yp yt i j).sum).sum)
    / ((yt.length : ℚ) * (ncols yt : ℚ))

/-- One line of `evaluate_model`'s console output, one constructor per
`print` call. -/
inductive EvalLine where
  | separator
  | categoryReport (category : String) (body : String)
  | accuracyLine (value : ℚ)
  | fscoreLine (value : Option ℝ)

/-- `evaluate_model(model, X_test, y_test, category_names)`,
lines 167-189: predict, print a separator and a classification report per
category, compute the custom F-score and the overall accuracy, print
both, return nothing. -/
noncomputable def evaluate_model (model : List String → List (List ℤ))
    (report : List ℤ → List ℤ → String) (X_test : List String)
    (y_test : List (List ℤ)) (category_names : List String) :
    List EvalLine × Unit :=
  let y_pred := model X_test
  (((List.range category_names.length).flatMap fun i =>
      [EvalLine.separator,
       EvalLine.categoryReport (category_names.getD i "")
         (report (col y_test i) (col y_pred i))])
    ++ [EvalLine.accuracyLine (overall_accuracy y_pred y_test),
        EvalLine.fscoreLine (multioutput_fscore (LabelInput.df y_test)
          (LabelInput.arr y_pred) 1)],
   ())

/-- A concrete fitted model for witnesses: constant prediction. -/
def predictConst (m : List (List ℤ)) : List String → List (List ℤ) := fun _ => m

/-- A concrete `classification_report` stand-in for witnesses. -/
def reportConst : List ℤ → List ℤ → String := fun _ _ => "report"

/-! ### Command-line entry: `main`, lines 205-240 -/

/-- The externally observable steps `main` can take, in order: each
`print`, and each call into the pipeline stages. -/
inductive MainAction where
  | printed (msg : String)
  | loadData (databaseFilepath : String)
  | trainTestSplit
  | buildModel
  | fitModel
  | evaluateModel
  | saveModel (modelFilepath : String)
  | printUsage
deriving DecidableEq

/-- `main()`, lines 205-240: with `len(sys.argv) == 3` run the full
pipeline; otherwise print the usage message only. -/
def main (argv : List String) : List MainAction :=
  if argv.length = 3 then
    [MainAction.printed "Loading data...", MainAction.loadData (argv.getD 1 ""),
     MainAction.trainTestSplit,
     MainAction.printed "Building model...", MainAction.buildModel,
     MainAction.printed "Training model...", MainAction.fitModel,
     MainAction.printed "Evaluating model...", MainAction.evaluateModel,
     MainAction.printed "Saving model...", MainAction.saveModel (argv.getD 2 ""),
     MainAction.printed "Trained model saved!"]
  else
    [MainAction.printUsage]

/-! ### Basic bounds for the per-class and per-label scores -/

theorem tpCount_le_countEq_left (t p : List ℤ) (c : ℤ) :
    tpCount t p c ≤ countEq t c := by
  induction t generalizing p with
  | nil => simp [tpCount, countEq]
  | cons a t ih =>
    cases p with
    | nil => simp [tpCount, countEq]
    | cons b p =>
      have h := ih p
      simp only [tpCount, countEq, List.zip_cons_cons, List.filter_cons,
        List.count_cons] at *
      by_cases hac : a = c
      · by_cases hbc : b = c
        · simp [hac, hbc]; omega
        · simp [hac, hbc]; omega
      · simp [hac]; omega

theorem tpCount_le_countEq_right (t p : List ℤ) (c : ℤ) :
    tpCount t p c ≤ countEq p c := by
  induction t generalizing p with
  | nil => simp [tpCount, countEq]
  | cons a t ih =>
    cases p with
    | nil => simp [tpCount, countEq]
    | cons b p =>
      have h := ih p
      simp only [tpCount, countEq, List.zip_cons_cons, List.filter_cons,
        List.count_cons] at *
      by_cases hac : a = c
      · by_cases hbc : b = c
        · simp [hac, hbc]; omega
        · simp [hac, hbc]; omega
      · by_cases hbc : b = c
        · simp [hac, hbc]; omega
        · simp [hac, hbc]; omega

theorem precisionC_nonneg (t p : List ℤ) (c : ℤ) : 0 ≤ precisionC t p c := by
  unfold precisionC
  split
  · exact le_refl 0
  · positivity

theorem precisionC_le_one (t p : List ℤ) (c : ℤ) : precisionC t p c ≤ 1 := by
  unfold precisionC
  split
  · exact zero_le_one
  · rename_i h
    rw [div_le_one (by exact_mod_cast Nat.pos_of_ne_zero h)]
    exact_mod_cast tpCount_le_countEq_right t p c

theorem recallC_nonneg (t p : List ℤ) (c : ℤ) : 0 ≤ recallC t p c := by
  unfold recallC
  split
  · exact le_refl 0
  · positivity

theorem recallC_le_one (t p : List ℤ) (c : ℤ) : recallC t p c ≤ 1 := by
  unfold recallC
  split
  · exact zero_le_one
  · rename_i h
    rw [div_le_one (by exact_mod_cast Nat.pos_of_ne_zero h)]
    exact_mod_cast tpCount_le_countEq_left t p c

theorem fbetaClass_nonneg (t p : List ℤ) (β : ℚ) (c : ℤ) :
    0 ≤ fbetaClass t p β c := by
  unfold fbetaClass
  split
  · exact le_refl 0
  · have hP := precisionC_nonneg t p c
    have hR := recallC_nonneg t p c
    have hb : (0:ℚ) ≤ β ^ 2 := sq_nonneg β
    positivity

theorem fbetaClass_le_one (t p : List ℤ) (β : ℚ) (c : ℤ) :
    fbetaClass t p β c ≤ 1 := by
  unfold fbetaClass
  split
  · exact zero_le_one
  · rename_i hne
    have hP0 := precisionC_nonneg t p c
    have hP1 := precisionC_le_one t p c
    have hR0 := recallC_nonneg t p c
    have hR1 := recallC_le_one t p c
    have hb : (0:ℚ) ≤ β ^ 2 := sq_nonneg β
    have hden : 0 < β ^ 2 * precisionC t p c + recallC t p c :=
      lt_of_le_of_ne (by positivity) (Ne.symm hne)
    rw [div_le_one hden]
    nlinarith [mul_nonneg hb hP0, mul_nonneg hP0 hR0]

theorem weightedFbeta_nonneg (t p : List ℤ) (β : ℚ) :
    0 ≤ weightedFbeta t p β := by
  unfold weightedFbeta
  apply div_nonneg
  · apply List.sum_nonneg
    intro x hx
    obtain ⟨c, _, rfl⟩ := List.mem_map.mp hx
    exact mul_nonneg (by positivity) (fbetaClass_nonneg t p β c)
  · positivity

/-- The support counts over the observed labels add up to the column
length: the list-level form of `Multiset.sum_count_eq_card`. -/
theorem sum_countEq (t p : List ℤ) :
    (((t ++ p).dedup.map fun c => (countEq t c : ℚ)).sum) = (t.length : ℚ) := by
  have hbridge : (((t ++ p).dedup.map fun c => (countEq t c : ℚ)).sum)
      = Finset.sum (t ++ p).toFinset fun c => (countEq t c : ℚ) := rfl
  rw [hbridge]
  have hnat : (Finset.sum (t ++ p).toFinset fun c => countEq t c) = t.length := by
    have hsub : ∀ a ∈ (t : Multiset ℤ), a ∈ (t ++ p).toFinset := by
      intro a ha
      simp only [List.toFinset_append, Finset.mem_union, List.mem_toFinset]
      exact Or.inl (by simpa using ha)
    simpa [countEq] using Multiset.sum_count_eq_card hsub
  calc (Finset.sum (t ++ p).toFinset fun c => (countEq t c : ℚ))
      = ((Finset.sum (t ++ p).toFinset fun c => countEq t c : ℕ) : ℚ) := by
        push_cast; rfl
    _ = (t.length : ℚ) := by rw [hnat]

theorem weightedFbeta_le_one (t p : List ℤ) (β : ℚ) :
    weightedFbeta t p β ≤ 1 := by
  unfold weightedFbeta
  rcases Nat.eq_zero_or_pos t.length with h0 | hpos
  · have ht : t = [] := List.length_eq_zero.mp h0
    subst ht
    have hz : (([] ++ p).dedup.map fun c =>
        (countEq ([] : List ℤ) c : ℚ) * fbetaClass [] p β c).sum = 0 := by
      apply List.sum_eq_zero
      intro x hx
      obtain ⟨c, _, rfl⟩ := List.mem_map.mp hx
      simp [countEq]
    rw [hz]
    simp
  · have hlen : (0:ℚ) < (t.length : ℚ) := by exact_mod_cast hpos
    rw [div_le_one hlen]
    calc ((t ++ p).dedup.map fun c => (countEq t c : ℚ) * fbetaClass t p β c).sum
        ≤ ((t ++ p).dedup.map fun c => (countEq t c : ℚ)).sum := by
          apply List.sum_le_sum
          intro c _
          have := fbetaClass_le_one t p β c
          have h0 : (0:ℚ) ≤ (countEq t c : ℚ) := by positivity
          nlinarith
      _ = (t.length : ℚ) := sum_countEq t p

theorem scoreList_mem_unit (yt yp : List (List ℤ)) (β : ℚ) :
    ∀ s ∈ scoreList yt yp β, 0 ≤ s ∧ s ≤ 1 := by
  intro s hs
  obtain ⟨j, _, rfl⟩ := List.mem_map.mp hs
  exact ⟨weightedFbeta_nonneg _ _ _, weightedFbeta_le_one _ _ _⟩

theorem list_prod_unit (l : List ℝ) (h : ∀ x ∈ l, 0 ≤ x ∧ x ≤ 1) :
    0 ≤ l.prod ∧ l.prod ≤ 1 := by
  induction l with
  | nil => simp
  | cons a as ih =>
    have ha := h a (List.mem_cons_self a as)
    have has := ih fun x hx => h x (List.mem_cons_of_mem a hx)
    rw [List.prod_cons]
    refine ⟨mul_nonneg ha.1 has.1, ?_⟩
    calc a * as.prod ≤ 1 * 1 := mul_le_mul ha.2 has.2 has.1 zero_le_one
      _ = 1 := one_mul 1

theorem gmeanQ_bounds (l : List ℚ) (hne : l ≠ []) (h : ∀ x ∈ l, 0 ≤ x ∧ x ≤ 1) :
    ∃ r, gmeanQ l = some r ∧ 0 ≤ r ∧ r ≤ 1 := by
  have hprod : 0 ≤ (l.map fun q : ℚ => (q : ℝ)).prod ∧ (l.map fun q : ℚ => (q : ℝ)).prod ≤ 1 := by
    apply list_prod_unit
    intro x hx
    obtain ⟨y, hy, hyx⟩ := List.mem_map.mp hx
    subst hyx
    exact ⟨by exact_mod_cast (h y hy).1, by exact_mod_cast (h y hy).2⟩
  have hexp : (0:ℝ) ≤ ((l.length : ℝ))⁻¹ := by positivity
  refine ⟨(l.map fun q : ℚ => (q : ℝ)).prod ^ ((l.length : ℝ))⁻¹, ?_, ?_, ?_⟩
  · cases l with
    | nil => exact absurd rfl hne
    | cons a as => simp [gmeanQ]
  · exact Real.rpow_nonneg hprod.1 _
  · exact Real.rpow_le_one hprod.1 hprod.2 hexp

/-! ### Claim theorems for the Scorer -/

attribute [local semireducible] Rat.mul Rat.inv Rat.add Rat.sub

/-- C1: for every pair of label matrices, `multioutput_fscore` computes one
support-weighted F-beta score per label column, removes every per-label
score exactly equal to `1`, and returns the geometric mean of the
remaining scores (the source filters with `< 1`, which agrees with
removing the scores equal to `1` because every score lies in `[0,1]`);
in particular per-label scores `[0.8, 1.0, 0.6]` aggregate to
`√0.48`. -/
theorem multioutput_fscore_gmean_drop_perfect :
    (∀ (Y P : LabelInput) (β : ℚ),
      multioutput_fscore Y P β
        = gmeanQ ((scoreList (toValues Y) (toValues P) β).filter fun s => decide (¬ s = 1)))
    ∧ gmeanQ (([4/5, 1, 3/5] : List ℚ).filter fun s => decide (¬ s = 1))
        = some (Real.sqrt (48/100)) := by
  constructor
  · intro Y P β
    unfold multioutput_fscore
    congr 1
    apply List.filter_congr
    intro s hs
    have hle := (scoreList_mem_unit (toValues Y) (toValues P) β s hs).2
    apply decide_eq_decide.mpr
    constructor
    · exact fun hlt => ne_of_lt hlt
    · exact fun hne => lt_of_le_of_ne hle hne
  · have hf : (([4/5, 1, 3/5] : List ℚ).filter fun s => decide (¬ s = 1))
        = [4/5, 3/5] := by decide
    rw [hf]
    have hE : gmeanQ ([4/5, 3/5] : List ℚ)
        = some ((((4/5 : ℚ) : ℝ) * (((3/5 : ℚ) : ℝ) * 1)) ^ (((2:ℕ) : ℝ))⁻¹) := by
      simp [gmeanQ]
    rw [hE, Real.sqrt_eq_rpow]
    have hbase : (((4/5 : ℚ) : ℝ) * (((3/5 : ℚ) : ℝ) * 1)) = (48/100 : ℝ) := by
      push_cast
      norm_num
    have hexp : (((2:ℕ) : ℝ))⁻¹ = 1 / (2:ℝ) := by norm_num
    rw [hbase, hexp]

/-- C2: when every per-label weighted F-beta score equals exactly `1`, the
filter at line 132 removes all of them and `gmean` is applied to an empty
array; scipy yields NaN there — no well-defined score, modelled as
`none`. -/
theorem multioutput_fscore_all_perfect_undefined (Y P : LabelInput) (β : ℚ)
    (h : ∀ s ∈ scoreList (toValues Y) (toValues P) β, s = 1) :
    multioutput_fscore Y P β = none := by
  unfold multioutput_fscore
  have hf : ((scoreList (toValues Y) (toValues P) β).filter fun s => decide (s < 1))
      = [] := by
    rw [List.filter_eq_nil_iff]
    intro s hs
    simp [h s hs]
  rw [hf]
  simp [gmeanQ]

theorem multioutput_fscore_all_perfect_undefined_witness :
    (∀ s ∈ scoreList [[1]] [[1]] 1, s = 1)
    ∧ multioutput_fscore (LabelInput.arr [[1]]) (LabelInput.arr [[1]]) 1 = none :=
  ⟨by decide,
   multioutput_fscore_all_perfect_undefined (LabelInput.arr [[1]]) (LabelInput.arr [[1]]) 1
     (by decide)⟩

/-- C3: for a class with zero predicted members or zero true members in a
label column (the division-by-zero case of precision/recall), that class's
F-beta contribution is `0`, and the column's weighted score is still a
numeric value in `[0,1]` — no exception path exists. -/
theorem fbetaClass_zero_division_is_zero (t p : List ℤ) (β : ℚ) (c : ℤ)
    (h : countEq p c = 0 ∨ countEq t c = 0) :
    fbetaClass t p β c = 0
    ∧ 0 ≤ weightedFbeta t p β ∧ weightedFbeta t p β ≤ 1 := by
  refine ⟨?_, weightedFbeta_nonneg t p β, weightedFbeta_le_one t p β⟩
  have htp : tpCount t p c = 0 := by
    rcases h with h | h
    · have := tpCount_le_countEq_right t p c
      omega
    · have := tpCount_le_countEq_left t p c
      omega
  have hP : precisionC t p c = 0 := by
    unfold precisionC
    split
    · rfl
    · simp [htp]
  have hR : recallC t p c = 0 := by
    unfold recallC
    split
    · rfl
    · simp [htp]
  unfold fbetaClass
  simp [hP, hR]

theorem fbetaClass_zero_division_is_zero_witness :
    (countEq [1, 1] (0:ℤ) = 0 ∨ countEq [1, 1] (0:ℤ) = 0)
    ∧ (fbetaClass [1, 1] [1, 1] 1 0 = 0
       ∧ 0 ≤ weightedFbeta [1, 1] [1, 1] 1 ∧ weightedFbeta [1, 1] [1, 1] 1 ≤ 1) :=
  ⟨Or.inl (by decide),
   fbetaClass_zero_division_is_zero [1, 1] [1, 1] 1 0 (Or.inl (by decide))⟩

/-- C4: whenever not every per-label score equals `1`, the aggregate is a
real number in the closed interval `[0,1]`. -/
theorem multioutput_fscore_range (Y P : LabelInput) (β : ℚ)
    (h : ∃ s ∈ scoreList (toValues Y) (toValues P) β, ¬ s = 1) :
    ∃ r, multioutput_fscore Y P β = some r ∧ 0 ≤ r ∧ r ≤ 1 := by
  obtain ⟨s, hs, hs1⟩ := h
  have hb := scoreList_mem_unit (toValues Y) (toValues P) β s hs
  have hlt : s < 1 := lt_of_le_of_ne hb.2 hs1
  unfold multioutput_fscore
  have hmem : s ∈ (scoreList (toValues Y) (toValues P) β).filter
      fun s => decide (s < 1) :=
    List.mem_filter.mpr ⟨hs, by simpa using hlt⟩
  apply gmeanQ_bounds _ (List.ne_nil_of_mem hmem)
  intro x hx
  exact scoreList_mem_unit _ _ _ x (List.mem_filter.mp hx).1

theorem multioutput_fscore_range_witness :
    (∃ s ∈ scoreList [[0], [1]] [[0], [0]] 1, ¬ s = 1)
    ∧ ∃ r, multioutput_fscore (LabelInput.arr [[0], [1]]) (LabelInput.arr [[0], [0]]) 1
        = some r ∧ 0 ≤ r ∧ r ≤ 1 :=
  ⟨by decide,
   multioutput_fscore_range (LabelInput.arr [[0], [1]]) (LabelInput.arr [[0], [0]]) 1
     (by decide)⟩

/-! ### StartingVerbExtractor lemmas -/

theorem pyCharLower_ne_R (c : Char) : pyCharLower c ≠ 'R' := by
  unfold pyCharLower
  cases hf : asciiLowerTable.find? fun q => q.1 == c with
  | none =>
    simp only [Option.map_none', Option.getD_none]
    intro h
    subst h
    exact List.find?_eq_none.mp hf ('R', 'r') (by decide) (by decide)
  | some pr =>
    simp only [Option.map_some', Option.getD_some]
    have hmem : pr ∈ asciiLowerTable := List.mem_of_find?_eq_some hf
    have hall : ∀ q ∈ asciiLowerTable, q.2 ≠ 'R' := by decide
    exact hall pr hmem

theorem mem_of_mem_pyStrip (s : String) (c : Char) (h : c ∈ (pyStrip s).data) :
    c ∈ s.data := by
  have h0 : c ∈ ((s.data.dropWhile Char.isWhitespace).reverse.dropWhile
      Char.isWhitespace).reverse := h
  have h1 := List.mem_reverse.mp h0
  have h2 := (List.dropWhile_sublist Char.isWhitespace).subset h1
  have h3 := List.mem_reverse.mp h2
  exact (List.dropWhile_sublist Char.isWhitespace).subset h3

theorem pyStrip_pyLower_ne_RT (s : String) : pyStrip (pyLower s) ≠ "RT" := by
  intro h
  have hdata : (pyStrip (pyLower s)).data = ['R', 'T'] := by rw [h]
  have hR : 'R' ∈ (pyStrip (pyLower s)).data := by
    rw [hdata]
    exact List.mem_cons_self 'R' ['T']
  have hR2 : 'R' ∈ s.data.map pyCharLower := mem_of_mem_pyStrip (pyLower s) 'R' hR
  obtain ⟨c, _, hc⟩ := List.mem_map.mp hR2
  exact pyCharLower_ne_R c hc

theorem tokenize_ne_RT (wt : String → List String) (lem : String → String)
    (text : String) : ∀ w ∈ tokenize wt lem text, w ≠ "RT" := by
  intro w hw
  obtain ⟨tok, _, rfl⟩ := List.mem_map.mp hw
  exact pyStrip_pyLower_ne_RT (lem tok)

theorem posTag_head_token (tagger : List String → List String) (toks : List String)
    (w tg : String) (rest : List (String × String))
    (h : posTag tagger toks = (w, tg) :: rest) : w ∈ toks := by
  unfold posTag at h
  cases toks with
  | nil => simp at h
  | cons a as =>
    cases htag : tagger (a :: as) with
    | nil =>
      rw [htag] at h
      simp at h
    | cons b bs =>
      rw [htag, List.zip_cons_cons] at h
      injection h with h1 _
      have ha : a = w := congrArg Prod.fst h1
      rw [← ha]
      exact List.mem_cons_self a as

theorem starting_verb_loop_some_true_iff (flag : String → Option Bool)
    (L : List String) (h : ∀ s ∈ L, flag s ≠ none) :
    (starting_verb_loop flag L = some true ↔ ∃ s ∈ L, flag s = some true) := by
  induction L with
  | nil => simp [starting_verb_loop]
  | cons a L ih =>
    have ha := h a (List.mem_cons_self a L)
    have ih' := ih fun s hs => h s (List.mem_cons_of_mem a hs)
    cases hfa : flag a with
    | none => exact absurd hfa ha
    | some b =>
      cases b with
      | false =>
        have hstep : starting_verb_loop flag (a :: L) = starting_verb_loop flag L := by
          simp [starting_verb_loop, hfa]
        rw [hstep, ih']
        constructor
        · rintro ⟨s, hs, hflag⟩
          exact ⟨s, List.mem_cons_of_mem a hs, hflag⟩
        · rintro ⟨s, hs, hflag⟩
          rcases List.mem_cons.mp hs with rfl | hs'
          · rw [hfa] at hflag
            exact absurd hflag (by simp)
          · exact ⟨s, hs', hflag⟩
      | true =>
        have hstep : starting_verb_loop flag (a :: L) = some true := by
          simp [starting_verb_loop, hfa]
        rw [hstep]
        exact ⟨fun _ => ⟨a, List.mem_cons_self a L, hfa⟩, fun _ => rfl⟩

theorem sentenceFlag_some_true_iff (wt : String → List String) (lem : String → String)
    (tagger : List String → List String) (s : String) :
    (sentenceFlag wt lem tagger s = some true ↔
      ∃ w tg rest, posTag tagger (tokenize wt lem s) = (w, tg) :: rest
        ∧ ((tg = "VB" ∨ tg = "VBP") ∨ w = "RT")) := by
  unfold sentenceFlag
  cases hpt : posTag tagger (tokenize wt lem s) with
  | nil => simp
  | cons pr rest =>
    obtain ⟨w, tg⟩ := pr
    constructor
    · intro hsome
      refine ⟨w, tg, rest, rfl, ?_⟩
      have hb : ((tg == "VB") || (tg == "VBP") || (w == "RT")) = true :=
        Option.some_inj.mp hsome
      simpa [Bool.or_eq_true, beq_iff_eq, or_assoc] using hb
    · rintro ⟨w', tg', rest', heq, hcond⟩
      injection heq with h1 _
      injection h1 with hw htg
      subst hw
      subst htg
      have hb : ((tg == "VB") || (tg == "VBP") || (w == "RT")) = true := by
        rcases hcond with hv | hRT
        · rcases hv with h' | h' <;> simp [h']
        · simp [hRT]
      exact congrArg Option.some hb

/-! ### Claim theorems for StartingVerbExtractor, Evaluator, main -/

/-- C5 counterexample: with the NLTK collaborators behaving as they do on
this text (`word_tokenize` splits into `RT`/`breaking`/`news`, the
lemmatizer leaves them unchanged, the tagger tags the lowercased `rt` as a
noun), the input \"RT breaking news\" maps to `False`, not `True`: the
token compared against the literal `'RT'` has already been lowercased to
`rt`. -/
theorem starting_verb_rt_maps_to_false :
    starting_verb sentTokSimple wordTokRT (fun w => w) tagRT "RT breaking news"
      = some false := by decide

/-- C5 amended: whenever every sentence produces a nonempty tag list,
`starting_verb` is `True` exactly when some sentence's leading processed
token is tagged `VB` or `VBP`; the `first_word == 'RT'` comparison at
line 88 can never succeed because `tokenize` lowercases every token, so
the literal-marker rule is dead code. -/
theorem starting_verb_first_verb_sentence (st wt : String → List String)
    (lem : String → String) (tagger : List String → List String) (text : String)
    (h : ∀ s ∈ st text, sentenceFlag wt lem tagger s ≠ none) :
    (starting_verb st wt lem tagger text = some true ↔
      ∃ s ∈ st text, ∃ w tg rest,
        posTag tagger (tokenize wt lem s) = (w, tg) :: rest ∧ (tg = "VB" ∨ tg = "VBP"))
    ∧ ∀ s w tg rest,
        posTag tagger (tokenize wt lem s) = (w, tg) :: rest → ¬ w = "RT" := by
  have hdead : ∀ s w tg rest,
      posTag tagger (tokenize wt lem s) = (w, tg) :: rest → ¬ w = "RT" := by
    intro s w tg rest heq
    exact tokenize_ne_RT wt lem s w (posTag_head_token _ _ _ _ _ heq)
  refine ⟨?_, hdead⟩
  unfold starting_verb
  rw [starting_verb_loop_some_true_iff _ _ h]
  constructor
  · rintro ⟨s, hs, hflag⟩
    rw [sentenceFlag_some_true_iff] at hflag
    obtain ⟨w, tg, rest, heq, hcond⟩ := hflag
    rcases hcond with hv | hRT
    · exact ⟨s, hs, w, tg, rest, heq, hv⟩
    · exact absurd hRT (hdead s w tg rest heq)
  · rintro ⟨s, hs, w, tg, rest, heq, hv⟩
    exact ⟨s, hs,
      (sentenceFlag_some_true_iff wt lem tagger s).mpr ⟨w, tg, rest, heq, Or.inl hv⟩⟩

theorem starting_verb_first_verb_sentence_witness :
    (∀ s ∈ sentTokSimple "Run now",
        sentenceFlag wordTokRun (fun w => w) tagRun s ≠ none)
    ∧ ((starting_verb sentTokSimple wordTokRun (fun w => w) tagRun "Run now"
          = some true ↔
        ∃ s ∈ sentTokSimple "Run now", ∃ w tg rest,
          posTag tagRun (tokenize wordTokRun (fun w => w) s) = (w, tg) :: rest
            ∧ (tg = "VB" ∨ tg = "VBP"))
       ∧ ∀ s w tg rest,
           posTag tagRun (tokenize wordTokRun (fun w => w) s) = (w, tg) :: rest
             → ¬ w = "RT") :=
  ⟨by decide,
   starting_verb_first_verb_sentence sentTokSimple wordTokRun (fun w => w) tagRun
     "Run now" (by decide)⟩

/-- C9: when sentence segmentation yields no sentences — as NLTK does on
the empty text — the loop body never runs and `starting_verb` returns
`False`. -/
theorem starting_verb_no_sentences (st wt : String → List String)
    (lem : String → String) (tagger : List String → List String) (text : String)
    (h : st text = []) :
    starting_verb st wt lem tagger text = some false := by
  unfold starting_verb
  rw [h]
  rfl

theorem starting_verb_no_sentences_witness :
    sentTokSimple "" = []
    ∧ starting_verb sentTokSimple wordTokRT (fun w => w) tagRT "" = some false :=
  ⟨by decide,
   starting_verb_no_sentences sentTokSimple wordTokRT (fun w => w) tagRT "" (by decide)⟩

/-! ### Evaluator lemmas and claims -/

theorem list_range_map_sum (n : ℕ) (f : ℕ → ℚ) :
    ((List.range n).map f).sum = Finset.sum (Finset.range n) f := rfl

/-- Mean-of-column-means equals the mean over all cells: the two
denominators regroup and the double sum commutes. -/
theorem accuracy_mean_mean_eq (yp yt : List (List ℤ)) :
    overall_accuracy yp yt = cellMeanAccuracy yp yt := by
  unfold overall_accuracy cellMeanAccuracy colMeanMatch
  simp only [list_range_map_sum]
  rw [← Finset.sum_div, div_div, Finset.sum_comm]

/-- C6: `(y_pred == y_test).mean().mean()` is exactly the mean, over every
(sample, label) cell, of the exact-match indicator between prediction and
truth. -/
theorem overall_accuracy_is_cell_mean (yp yt : List (List ℤ)) :
    overall_accuracy yp yt = cellMeanAccuracy yp yt :=
  accuracy_mean_mean_eq yp yt

theorem flatMap_pair_length (n : ℕ) (f : ℕ → List EvalLine)
    (h : ∀ i, (f i).length = 2) :
    ((List.range n).flatMap f).length = 2 * n := by
  induction n with
  | zero => simp
  | succ m ih =>
    rw [List.range_succ, List.flatMap_append]
    simp only [List.length_append, ih, List.flatMap_cons, List.flatMap_nil,
      List.append_nil, h m]
    ring

/-- C7 counterexample: on a concrete one-category test set the Evaluator's
console trace is nonempty — `evaluate_model` does produce direct output
side effects (one print per trace entry). -/
theorem evaluate_model_output_nonempty :
    (evaluate_model (predictConst [[1]]) reportConst ["msg"] [[1]] ["related"]).1
      ≠ [] := by
  unfold evaluate_model
  simp

/-- C7 amended: `evaluate_model` emits its results as printed output — two
lines per category followed by the overall-accuracy line (whose value is
the mean of the exact-match indicator over all cells) and the custom
F-score line — and returns `None` rather than a structured bundle. -/
theorem evaluate_model_prints_reports (model : List String → List (List ℤ))
    (report : List ℤ → List ℤ → String) (X_test : List String)
    (y_test : List (List ℤ)) (category_names : List String) :
    ∃ pre : List EvalLine,
      (evaluate_model model report X_test y_test category_names).1
        = pre ++ [EvalLine.accuracyLine (cellMeanAccuracy (model X_test) y_test),
                  EvalLine.fscoreLine (multioutput_fscore (LabelInput.df y_test)
                    (LabelInput.arr (model X_test)) 1)]
      ∧ pre.length = 2 * category_names.length
      ∧ (evaluate_model model report X_test y_test category_names).2 = () := by
  refine ⟨(List.range category_names.length).flatMap fun i =>
      [EvalLine.separator,
       EvalLine.categoryReport (category_names.getD i "")
         (report (col y_test i) (col (model X_test) i))], ?_, ?_, rfl⟩
  · unfold evaluate_model
    dsimp only
    rw [accuracy_mean_mean_eq]
  · exact flatMap_pair_length _ _ fun i => rfl

/-! ### Command-line entry claim -/

/-- C8: with any argument count other than three (the script name plus the
two user-supplied paths), `main` prints the usage guidance and nothing
else: no data loading, no model fitting, no evaluation, no model
persistence. -/
theorem main_wrong_argc_usage_only (argv : List String)
    (h : ¬ argv.length = 3) :
    main argv = [MainAction.printUsage]
    ∧ ∀ a ∈ main argv,
        (∀ db, ¬ a = MainAction.loadData db) ∧ ¬ a = MainAction.fitModel
        ∧ ¬ a = MainAction.evaluateModel
        ∧ ∀ mp, ¬ a = MainAction.saveModel mp := by
  have hm : main argv = [MainAction.printUsage] := by
    unfold main
    rw [if_neg h]
  refine ⟨hm, ?_⟩
  intro a ha
  rw [hm] at ha
  have haeq : a = MainAction.printUsage := by simpa using ha
  subst haeq
  exact ⟨fun db => by simp, by simp, by simp, fun mp => by simp⟩

theorem main_wrong_argc_usage_only_witness :
    (¬ (["train_classifier.py"] : List String).length = 3)
    ∧ (main ["train_classifier.py"] = [MainAction.printUsage]
       ∧ ∀ a ∈ main ["train_classifier.py"],
           (∀ db, ¬ a = MainAction.loadData db) ∧ ¬ a = MainAction.fitModel
           ∧ ¬ a = MainAction.evaluateModel
           ∧ ∀ mp, ¬ a = MainAction.saveModel mp) :=
  ⟨by decide, main_wrong_argc_usage_only ["train_classifier.py"] (by decide)⟩

/-! ### Container independence of the Scorer -/

/-- C10: `multioutput_fscore` depends only on the underlying matrix
contents: a `DataFrame` and the plain array it wraps (lines 124-127
convert the former to the latter) produce the same aggregate. -/
theorem multioutput_fscore_container_independent (a b c d : LabelInput) (β : ℚ)
    (h1 : toValues a = toValues b) (h2 : toValues c = toValues d) :
    multioutput_fscore a c β = multioutput_fscore b d β := by
  unfold multioutput_fscore
  rw [h1, h2]

theorem multioutput_fscore_container_independent_witness :
    (toValues (LabelInput.df [[1, 0]]) = toValues (LabelInput.arr [[1, 0]])
     ∧ toValues (LabelInput.df [[1, 1]]) = toValues (LabelInput.arr [[1, 1]]))
    ∧ multioutput_fscore (LabelInput.df [[1, 0]]) (LabelInput.df [[1, 1]]) 1
        = multioutput_fscore (LabelInput.arr [[1, 0]]) (LabelInput.arr [[1, 1]]) 1 :=
  ⟨⟨rfl, rfl⟩,
   multioutput_fscore_container_independent (LabelInput.df [[1, 0]])
     (LabelInput.arr [[1, 0]]) (LabelInput.df [[1, 1]]) (LabelInput.arr [[1, 1]]) 1
     rfl rfl⟩

end DisasterResponse
